import Mathlib

/-!
# AVL tree (`src/main.cpp`): shallow embedding and verified properties

`avl_tree<T>` owns a chain of heap nodes through raw pointers.  Ownership is
strictly hierarchical (no sharing, no back references), so a `node*` is embedded
as a value of the inductive type `avl_tree.node`: `null` is the null pointer and
`mk left right value height balance` is a pointer to a `node` struct with these
fields, in the order of the struct declaration.

* The element type `T` is a type with a linear order: `==` is its equality and
  `<` its strict order.
* The `int` fields `height` and `balance` are embedded as `Int`.  The program
  only adds one to, or subtracts, stored heights, and the height of an AVL tree is
  logarithmic in its node count, so this arithmetic stays far below `2^31` for
  every tree that fits in memory; no reduction modulo `2^32` is applied.
* `size_` (a `size_t`) is embedded as `Nat`; it counts allocated nodes.
* Dereferencing a null pointer and a failing `assert` are embedded as `none`.
* A visitor `F` is embedded as a state transformer `α → σ → σ`: calling `f(v)`
  in state `s` gives state `f v s`.
-/

set_option autoImplicit false
set_option linter.unusedVariables false

/-- The `node*` of the source: `null`, or a node with the fields of `struct node`. -/
inductive avl_tree.node (α : Type) where
  | null : avl_tree.node α
  | mk (left right : avl_tree.node α) (value : α) (height balance : Int) : avl_tree.node α
  deriving DecidableEq

/-- The class `avl_tree<T>`: its two data members. -/
structure avl_tree (α : Type) where
  root_ : avl_tree.node α
  size_ : Nat
  deriving DecidableEq

namespace avl_tree

variable {α : Type}

namespace node

/-- The expression `(c) ? (c->height) : -1` of `update`, for a child pointer `c`. -/
def child_height : node α → Int
  | null => -1
  | mk _ _ _ h _ => h

/-- Source `inorder_traversal(node*, F&&)`: left subtree, the value, right subtree. -/
def inorder_traversal {σ : Type} : node α → (α → σ → σ) → σ → σ
  | null, _, s => s
  | mk l r x _ _, f, s => inorder_traversal r f (f x (inorder_traversal l f s))

/-- Source `preorder_traversal(node*, F&&)`: the value, then the source calls
`inorder_traversal` on the left child and on the right child. -/
def preorder_traversal {σ : Type} : node α → (α → σ → σ) → σ → σ
  | null, _, s => s
  | mk l r x _ _, f, s => inorder_traversal r f (inorder_traversal l f (f x s))

/-- Source `postorder_traversal(node*, F&&)`: the source calls `inorder_traversal`
on the left child and on the right child, then visits the value. -/
def postorder_traversal {σ : Type} : node α → (α → σ → σ) → σ → σ
  | null, _, s => s
  | mk l r x _ _, f, s => f x (inorder_traversal r f (inorder_traversal l f s))

/-- Source `update`: asserts the node is present, then refreshes `height` and
`balance` from the children's stored heights. -/
def update : node α → Option (node α)
  | null => none
  | mk l r x _ _ =>
    let left := child_height l
    let right := child_height r
    let balance := right - left
    some (mk l r x (1 + max left right) balance)

/-- Source `right_rotation(a)`: `b = a->left`, `e = b->right`, `a->left = e`,
`b->right = a`, then `update(a)`, `update(b)`; returns `b`. -/
def right_rotation : node α → Option (node α)
  | null => none
  | mk null _ _ _ _ => none
  | mk (mk bl e bx bh bb) ar ax ah ab =>
    (update (mk e ar ax ah ab)).bind fun a =>
    update (mk bl a bx bh bb)

/-- Source `left_rotation(b)`: `a = b->right`, `e = a->left`, `a->left = b`,
`b->right = e`, then `update(b)`, `update(a)`; returns `a`. -/
def left_rotation : node α → Option (node α)
  | null => none
  | mk _ null _ _ _ => none
  | mk bl (mk e ar ax ah ab) bx bh bb =>
    (update (mk bl e bx bh bb)).bind fun b =>
    update (mk b ar ax ah ab)

/-- Source `left_left_case`. -/
def left_left_case (a : node α) : Option (node α) :=
  right_rotation a

/-- Source `left_right_case`: `n->left = left_rotation(n->left)`, then the
left-left case. -/
def left_right_case : node α → Option (node α)
  | null => none
  | mk l r x h b =>
    (left_rotation l).bind fun l1 =>
    left_left_case (mk l1 r x h b)

/-- Source `right_right_case`. -/
def right_right_case (b : node α) : Option (node α) :=
  left_rotation b

/-- Source `right_left_case`: `n->right = right_rotation(n->right)`, then the
right-right case. -/
def right_left_case : node α → Option (node α)
  | null => none
  | mk l r x h b =>
    (right_rotation r).bind fun r1 =>
    right_right_case (mk l r1 x h b)

/-- Source `balance`: asserts the node is present and dispatches on the stored
balance of the node and of the heavy child. -/
def balance : node α → Option (node α)
  | null => none
  | mk l r x h b =>
    if b = -2 then
      match l with
      | null => none
      | mk _ _ _ _ lb =>
        if lb ≤ 0 then left_left_case (mk l r x h b)
        else left_right_case (mk l r x h b)
    else if b = 2 then
      match r with
      | null => none
      | mk _ _ _ _ rb =>
        if rb ≥ 0 then right_right_case (mk l r x h b)
        else right_left_case (mk l r x h b)
    else some (mk l r x h b)

/-- Source `insert(node*, U&&)`.  The member `size_` is threaded through as the
third argument and the second component of the result. -/
def insert [LinearOrder α] : node α → α → Nat → Option (node α × Nat)
  | null, v, size_ => some (mk null null v 0 0, size_ + 1)
  | mk l r x h b, v, size_ =>
    if v = x then some (mk l r x h b, size_)
    else if v < x then
      (insert l v size_).bind fun p =>
      ((update (mk p.1 r x h b)).bind balance).map fun n => (n, p.2)
    else
      (insert r v size_).bind fun p =>
      ((update (mk l p.1 x h b)).bind balance).map fun n => (n, p.2)

end node

/-- The default constructor `avl_tree()`: no root, size zero. -/
def empty_tree : avl_tree α := ⟨node.null, 0⟩

/-- Source `insert(U&&)`: `root_ = insert(root_, v)`. -/
def insert [LinearOrder α] (t : avl_tree α) (v : α) : Option (avl_tree α) :=
  (node.insert t.root_ v t.size_).map fun p => ⟨p.1, p.2⟩

/-- Source `inorder_traversal(F&&)`. -/
def inorder_traversal {σ : Type} (t : avl_tree α) (f : α → σ → σ) (s : σ) : σ :=
  node.inorder_traversal t.root_ f s

/-- Source `preorder_traversal(F&&)`. -/
def preorder_traversal {σ : Type} (t : avl_tree α) (f : α → σ → σ) (s : σ) : σ :=
  node.preorder_traversal t.root_ f s

/-- Source `postorder_traversal(F&&)`. -/
def postorder_traversal {σ : Type} (t : avl_tree α) (f : α → σ → σ) (s : σ) : σ :=
  node.postorder_traversal t.root_ f s

/-- Source `size()`. -/
def size (t : avl_tree α) : Nat := t.size_

/-- Source `empty()`: `size_ == 0`. -/
def empty (t : avl_tree α) : Bool := t.size_ == 0

/-- Source `height()`: `0` without a root, else the root's stored `int` height
converted to `size_t` (reduction modulo `2^64`). -/
def height (t : avl_tree α) : Nat :=
  match t.root_ with
  | node.null => 0
  | node.mk _ _ _ h _ => (h % 2 ^ 64).toNat

/-- Source `contains`.  The loop tests `t->value == v`, then `v < t->left`: the
second operand is the left child POINTER, not a stored value.  The outcome of
that comparison of a value with a pointer is the parameter `lt_ptr`, applied to
the value and the left child. -/
def contains_from [DecidableEq α] (lt_ptr : α → node α → Bool) : node α → α → Bool
  | node.null, _ => false
  | node.mk l r x _ _, v =>
    if x = v then true
    else if lt_ptr v l then contains_from lt_ptr l v
    else contains_from lt_ptr r v

/-- Source `contains(v)`: the loop started at `root_`. -/
def contains [DecidableEq α] (lt_ptr : α → node α → Bool) (t : avl_tree α) (v : α) : Bool :=
  contains_from lt_ptr t.root_ v

/-- A sequence of `insert` calls on a tree, in the order of the list. -/
def insert_all [LinearOrder α] : avl_tree α → List α → Option (avl_tree α)
  | t, [] => some t
  | t, v :: vs => (insert t v).bind fun t1 => insert_all t1 vs

/-- The tree obtained from the empty tree by inserting the values one by one. -/
def build [LinearOrder α] (vs : List α) : Option (avl_tree α) :=
  insert_all empty_tree vs

/-- The visitor that records each visited value, in order of the calls. -/
def record (v : α) (acc : List α) : List α := acc ++ [v]

/-- The sequence of values `inorder_traversal` passes to its visitor. -/
def inorder (t : avl_tree α) : List α := inorder_traversal t record []

/-- The sequence of values `preorder_traversal` passes to its visitor. -/
def preorder (t : avl_tree α) : List α := preorder_traversal t record []

end avl_tree

namespace avl_tree

variable {α : Type}

namespace node

/-- The true height of a tree shape: the number of edges on the longest path
from the root to a leaf; an absent subtree has height `-1`. -/
def true_height : node α → Int
  | null => -1
  | mk l r _ _ _ => 1 + max (true_height l) (true_height r)

/-- The stored values, listed left subtree, node, right subtree. -/
def values : node α → List α
  | null => []
  | mk l r x _ _ => values l ++ x :: values r

/-- The number of nodes. -/
def count : node α → Nat
  | null => 0
  | mk l r _ _ _ => count l + count r + 1

/-- Invariant I1 (BST order) at every node. -/
def bst [LT α] : node α → Prop
  | null => True
  | mk l r x _ _ => bst l ∧ bst r ∧ (∀ y ∈ values l, y < x) ∧ (∀ y ∈ values r, x < y)

/-- Invariant I2 (AVL balance) at every node, on true heights. -/
def balanced : node α → Prop
  | null => True
  | mk l r _ _ _ =>
    balanced l ∧ balanced r ∧
      -1 ≤ true_height r - true_height l ∧ true_height r - true_height l ≤ 1

/-- Invariant I3 (metadata consistency) at every node, on the stored heights of
the children. -/
def meta_ok : node α → Prop
  | null => True
  | mk l r _ h b =>
    meta_ok l ∧ meta_ok r ∧
      h = 1 + max (child_height l) (child_height r) ∧ b = child_height r - child_height l

instance decidable_bst [LT α] [DecidableRel (fun (a b : α) => a < b)] :
    (n : node α) → Decidable (bst n)
  | null => isTrue trivial
  | mk l r x _ _ =>
    have := decidable_bst l
    have := decidable_bst r
    inferInstanceAs (Decidable (bst l ∧ bst r ∧ (∀ y ∈ values l, y < x) ∧ (∀ y ∈ values r, x < y)))

instance decidable_balanced : (n : node α) → Decidable (balanced n)
  | null => isTrue trivial
  | mk l r _ _ _ =>
    have := decidable_balanced l
    have := decidable_balanced r
    inferInstanceAs (Decidable (balanced l ∧ balanced r ∧
      -1 ≤ true_height r - true_height l ∧ true_height r - true_height l ≤ 1))

instance decidable_meta_ok : (n : node α) → Decidable (meta_ok n)
  | null => isTrue trivial
  | mk l r _ h b =>
    have := decidable_meta_ok l
    have := decidable_meta_ok r
    inferInstanceAs (Decidable (meta_ok l ∧ meta_ok r ∧
      h = 1 + max (child_height l) (child_height r) ∧ b = child_height r - child_height l))

end node

/-- What one call of the recursive `insert` establishes for its result. -/
structure node.insert_post [LinearOrder α] (n : node α) (v : α) (s : Nat)
    (n1 : node α) (s1 : Nat) : Prop where
  h_meta : node.meta_ok n1
  h_bal : node.balanced n1
  h_height : node.true_height n1 = node.true_height n ∨
    node.true_height n1 = node.true_height n + 1
  h_mem : ∀ y, y ∈ node.values n1 ↔ y ∈ node.values n ∨ y = v
  h_size : s1 + node.count n = s + node.count n1
  h_fresh : v ∉ node.values n → node.count n1 = node.count n + 1
  h_bst : node.bst n → node.bst n1
  h_dup : node.bst n → v ∈ node.values n → n1 = n

/-- The invariants of a tree: I1, I2, I3 at the root, and `size_` counts the nodes. -/
def wf [LinearOrder α] (t : avl_tree α) : Prop :=
  node.bst t.root_ ∧ node.balanced t.root_ ∧ node.meta_ok t.root_ ∧
    t.size_ = node.count t.root_

/-- The test `!n` on a node pointer. -/
def node.is_null : node α → Bool
  | node.null => true
  | node.mk _ _ _ _ _ => false

/-- The classic pre-order of the spec (section 4.4): the node's own value, then
the pre-order sequence of the left subtree, then that of the right subtree. -/
def node.spec_preorder : node α → List α
  | node.null => []
  | node.mk l r x _ _ => x :: (node.spec_preorder l ++ node.spec_preorder r)

/-- The sequence of values `postorder_traversal` passes to its visitor. -/
def postorder (t : avl_tree α) : List α := postorder_traversal t record []

/-- The classic post-order of the spec (section 4.4): the post-order sequence of
the left subtree, then that of the right subtree, then the node's own value. -/
def node.spec_postorder : node α → List α
  | node.null => []
  | node.mk l r x _ _ => node.spec_postorder l ++ node.spec_postorder r ++ [x]

/-- The shape of a subtree and the value at every position: the `height` and
`balance` fields are blanked. -/
def node.strip : node α → node α
  | node.null => node.null
  | node.mk l r x _ _ => node.mk (node.strip l) (node.strip r) x 0 0

/-- The `balance` field of a present node (0 for an absent one, which the source
never reads). -/
def node.stored_balance : node α → Int
  | node.null => 0
  | node.mk _ _ _ _ b => b

/-- The test of `balance` that selects a rotation: `n->balance == -2` or
`n->balance == 2`. -/
def node.rotates (n : node α) : Bool :=
  decide (node.stored_balance n = -2) || decide (node.stored_balance n = 2)

/-- The child whose `balance` field the `balance` step reads: `n->left` when
`n->balance == -2`, `n->right` when `n->balance == 2`; `none` when no child is
examined or the examined pointer is null. -/
def node.examined_child : node α → Option (node α)
  | node.null => none
  | node.mk l r _ _ b =>
    if b = -2 then
      match l with
      | node.null => none
      | node.mk ll lr lx lh lb => some (node.mk ll lr lx lh lb)
    else if b = 2 then
      match r with
      | node.null => none
      | node.mk rl rr rx rh rb => some (node.mk rl rr rx rh rb)
    else none

/-- Source `insert(node*, U&&)` with a ghost log: the third component of the
result lists, in the order of the calls, every node on which `balance` was
called (the node as `update` left it). -/
def node.insert_log [LinearOrder α] : node α → α → Nat → Option (node α × Nat × List (node α))
  | node.null, v, size_ => some (node.mk node.null node.null v 0 0, size_ + 1, [])
  | node.mk l r x h b, v, size_ =>
    if v = x then some (node.mk l r x h b, size_, [])
    else if v < x then
      (node.insert_log l v size_).bind fun p =>
      (node.update (node.mk p.1 r x h b)).bind fun m =>
      (node.balance m).map fun n => (n, p.2.1, p.2.2 ++ [m])
    else
      (node.insert_log r v size_).bind fun p =>
      (node.update (node.mk l p.1 x h b)).bind fun m =>
      (node.balance m).map fun n => (n, p.2.1, p.2.2 ++ [m])

/-- What the ghost log of one recursive `insert` satisfies, for the subtree `n`
the call started from and the subtree `n1` it returned. -/
structure node.log_post (n n1 : node α) (log : List (node α)) : Prop where
  h_called : ∀ m ∈ log, m ≠ node.null ∧ (node.balance m).isSome = true
  h_range : ∀ m ∈ log, -2 ≤ node.stored_balance m ∧ node.stored_balance m ≤ 2
  h_child : ∀ m ∈ log, node.rotates m = true →
    ∃ c, node.examined_child m = some c ∧ node.stored_balance c ≠ 0
  h_grow : node.true_height n1 = node.true_height n + 1 →
    n = node.null ∨ node.stored_balance n1 ≠ 0
  h_rot : (∃ m ∈ log, node.rotates m = true) →
    node.true_height n1 = node.true_height n ∧ node.child_height n1 = node.child_height n
  h_anc : (∃ m ∈ log.dropLast, node.rotates m = true) →
    node.stored_balance n1 = node.stored_balance n
  h_one : (log.filter node.rotates).length ≤ 1

/-- The number of nodes on the longest path from the root down; 0 for an absent
subtree. -/
def node.depth : node α → Nat
  | node.null => 0
  | node.mk l r _ _ _ => 1 + max (node.depth l) (node.depth r)

/-- Source `destroy(node*)`: releases the left subtree, the right subtree and the
node, with `--size_` once per node.  The result is the new value of `size_`, a
`size_t`: the decrement is taken modulo `2^64`. -/
def node.destroy : node α → Nat → Nat
  | node.null, size_ => size_
  | node.mk l r _ _ _, size_ =>
    (node.destroy r (node.destroy l size_) + (2 ^ 64 - 1)) % 2 ^ 64

/-- The value of `root_` once `destroy(root_)` has run: still null when it was
null, otherwise the address of a node that has been released, through which
nothing can be read any more. -/
inductive stale_ptr where
  | null : stale_ptr
  | released : stale_ptr
  deriving DecidableEq

/-- The two data members of an `avl_tree` object after `clear()`. -/
structure cleared where
  root_ : stale_ptr
  size_ : Nat
  deriving DecidableEq

/-- Source `clear()`: `destroy(root_)`.  Every node is released and `size_` is
counted down; the member `root_` is not assigned, so it keeps the address of the
released root node. -/
def clear (t : avl_tree α) : cleared :=
  ⟨match t.root_ with
    | node.null => stale_ptr.null
    | node.mk _ _ _ _ _ => stale_ptr.released,
   node.destroy t.root_ t.size_⟩

/-- Source `size()` on the object after `clear()`. -/
def cleared.size (c : cleared) : Nat := c.size_

/-- Source `empty()` on the object after `clear()`: `size_ == 0`. -/
def cleared.empty (c : cleared) : Bool := c.size_ == 0

/-! ## Traversals as folds over the value list -/

theorem node.inorder_traversal_eq_foldl {σ : Type} (n : node α) (f : α → σ → σ) (s : σ) :
    node.inorder_traversal n f s = (node.values n).foldl (fun acc v => f v acc) s := by
  induction n generalizing s with
  | null => rfl
  | mk l r x h b ihl ihr =>
    simp [node.inorder_traversal, node.values, ihl, ihr, List.foldl_append]

theorem foldl_record (xs acc : List α) :
    xs.foldl (fun acc v => record v acc) acc = acc ++ xs := by
  induction xs generalizing acc with
  | nil => simp
  | cons x xs ih => rw [List.foldl_cons, ih]; simp [record]

theorem inorder_eq_values (t : avl_tree α) : inorder t = node.values t.root_ := by
  simp [inorder, inorder_traversal, node.inorder_traversal_eq_foldl, foldl_record]

theorem node.true_height_ge (n : node α) : -1 ≤ node.true_height n := by
  induction n with
  | null => simp [node.true_height]
  | mk l r x h b ihl ihr => simp only [node.true_height]; omega

theorem node.child_height_eq (n : node α) (h : node.meta_ok n) :
    node.child_height n = node.true_height n := by
  induction n with
  | null => rfl
  | mk l r x hh b ihl ihr =>
    obtain ⟨h1, h2, h3, _⟩ := h
    rw [ihl h1, ihr h2] at h3
    simpa only [node.child_height, node.true_height] using h3

theorem node.update_mk (l r : node α) (x : α) (h b : Int) :
    node.update (node.mk l r x h b) =
      some (node.mk l r x (1 + max (node.child_height l) (node.child_height r))
        (node.child_height r - node.child_height l)) := rfl

namespace node

/-- Refreshing the metadata of a node whose subtrees satisfy I2 and I3 and whose
true heights differ by at most two, and then running `balance`, succeeds and
gives a subtree satisfying I2 and I3 with the same in-order values. -/
theorem update_balance_spec (l r : node α) (x : α) (h b : Int)
    (ml : meta_ok l) (mr : meta_ok r) (bl : balanced l) (br : balanced r)
    (lo : -2 ≤ true_height r - true_height l) (hi : true_height r - true_height l ≤ 2) :
    ∃ n, (update (mk l r x h b)).bind balance = some n ∧ meta_ok n ∧ balanced n ∧
      values n = values l ++ x :: values r ∧ count n = count l + count r + 1 ∧
      (true_height n = 1 + max (true_height l) (true_height r) ∨
        (true_height n = max (true_height l) (true_height r) ∧
          (true_height r - true_height l = 2 ∨ true_height r - true_height l = -2))) ∧
      (-1 ≤ true_height r - true_height l → true_height r - true_height l ≤ 1 →
        n = mk l r x (1 + max (child_height l) (child_height r))
          (child_height r - child_height l)) := by
  have el := child_height_eq l ml
  have er := child_height_eq r mr
  rw [update_mk, Option.some_bind, el, er]
  by_cases h2 : true_height r - true_height l = -2
  · cases l with
    | null =>
      exfalso
      have := true_height_ge r
      simp only [true_height] at h2
      omega
    | mk ll lr lx lh lb =>
      obtain ⟨mll, mlr, ehl, ebl⟩ := ml
      obtain ⟨bll, blr, b1, b2⟩ := bl
      have ell := child_height_eq ll mll
      have elr := child_height_eq lr mlr
      rw [ell, elr] at ehl ebl
      simp only [true_height] at h2 ⊢
      by_cases hlb : lb ≤ 0
      · refine ⟨mk ll (mk lr r x (1 + max (child_height lr) (child_height r))
            (child_height r - child_height lr)) lx
          (1 + max (child_height ll) (1 + max (child_height lr) (child_height r)))
          (1 + max (child_height lr) (child_height r) - child_height ll), ?_, ?_, ?_, ?_, ?_, ?_, ?_⟩
        · simp only [balance, h2, if_true, hlb, left_left_case, right_rotation, update_mk,
            Option.some_bind, child_height]
        · exact ⟨mll, ⟨mlr, mr, rfl, rfl⟩, rfl, rfl⟩
        · refine ⟨bll, ⟨blr, br, ?_, ?_⟩, ?_, ?_⟩ <;> (try simp only [true_height]) <;> omega
        · simp [values]
        · simp only [count]; omega
        · simp only [true_height]; omega
        · intro c1 c2; omega
      · cases lr with
        | null =>
          exfalso
          have := true_height_ge ll
          simp only [true_height] at ebl
          omega
        | mk e ar ax ah ab =>
          obtain ⟨me, mar, -, -⟩ := mlr
          obtain ⟨be, bar, b3, b4⟩ := blr
          simp only [true_height] at h2 ebl b1 b2 ⊢
          refine ⟨mk (mk ll e lx (1 + max (child_height ll) (child_height e))
              (child_height e - child_height ll))
            (mk ar r x (1 + max (child_height ar) (child_height r))
              (child_height r - child_height ar)) ax
            (1 + max (1 + max (child_height ll) (child_height e))
              (1 + max (child_height ar) (child_height r)))
            (1 + max (child_height ar) (child_height r) -
              (1 + max (child_height ll) (child_height e))), ?_, ?_, ?_, ?_, ?_, ?_, ?_⟩
          · simp only [balance, h2, if_true, hlb, if_false, left_right_case, left_left_case,
              left_rotation, right_rotation, update_mk, Option.some_bind, child_height]
          · exact ⟨⟨mll, me, rfl, rfl⟩, ⟨mar, mr, rfl, rfl⟩, rfl, rfl⟩
          · refine ⟨⟨bll, be, ?_, ?_⟩, ⟨bar, br, ?_, ?_⟩, ?_, ?_⟩ <;>
              (try simp only [true_height]) <;> omega
          · simp [values]
          · simp only [count]; omega
          · simp only [true_height]; omega
          · intro c1 c2; omega
  · by_cases h3 : true_height r - true_height l = 2
    · cases r with
      | null =>
        exfalso
        have := true_height_ge l
        simp only [true_height] at h3
        omega
      | mk rl rr rx rh rb =>
        obtain ⟨mrl, mrr, -, ebr⟩ := mr
        obtain ⟨brl, brr, b1, b2⟩ := br
        have erl := child_height_eq rl mrl
        have err := child_height_eq rr mrr
        rw [erl, err] at ebr
        simp only [true_height] at h2 h3 ⊢
        have hne : ¬ ((2 : Int) = -2) := by decide
        by_cases hrb : rb ≥ 0
        · refine ⟨mk (mk l rl x (1 + max (child_height l) (child_height rl))
              (child_height rl - child_height l)) rr rx
            (1 + max (1 + max (child_height l) (child_height rl)) (child_height rr))
            (child_height rr - (1 + max (child_height l) (child_height rl))),
            ?_, ?_, ?_, ?_, ?_, ?_, ?_⟩
          · simp only [balance, h3, hne, if_true, if_false, hrb, right_right_case,
              left_rotation, update_mk, Option.some_bind, child_height]
          · exact ⟨⟨ml, mrl, rfl, rfl⟩, mrr, rfl, rfl⟩
          · refine ⟨⟨bl, brl, ?_, ?_⟩, brr, ?_, ?_⟩ <;> (try simp only [true_height]) <;> omega
          · simp [values]
          · simp only [count]; omega
          · simp only [true_height]; omega
          · intro c1 c2; omega
        · cases rl with
          | null =>
            exfalso
            have := true_height_ge rr
            simp only [true_height] at ebr
            omega
          | mk bl2 e ax ah ab =>
            obtain ⟨mbl, me, -, -⟩ := mrl
            obtain ⟨bbl, be, b3, b4⟩ := brl
            simp only [true_height] at h2 h3 ebr b1 b2 ⊢
            refine ⟨mk (mk l bl2 x (1 + max (child_height l) (child_height bl2))
                (child_height bl2 - child_height l))
              (mk e rr rx (1 + max (child_height e) (child_height rr))
                (child_height rr - child_height e)) ax
              (1 + max (1 + max (child_height l) (child_height bl2))
                (1 + max (child_height e) (child_height rr)))
              (1 + max (child_height e) (child_height rr) -
                (1 + max (child_height l) (child_height bl2))), ?_, ?_, ?_, ?_, ?_, ?_, ?_⟩
            · simp only [balance, h3, hne, if_true, hrb, if_false, right_left_case,
                right_right_case, left_rotation, right_rotation, update_mk, Option.some_bind,
                child_height]
            · exact ⟨⟨ml, mbl, rfl, rfl⟩, ⟨me, mrr, rfl, rfl⟩, rfl, rfl⟩
            · refine ⟨⟨bl, bbl, ?_, ?_⟩, ⟨be, brr, ?_, ?_⟩, ?_, ?_⟩ <;>
                (try simp only [true_height]) <;> omega
            · simp [values]
            · simp only [count]; omega
            · simp only [true_height]; omega
            · intro c1 c2; omega
    · refine ⟨mk l r x (1 + max (true_height l) (true_height r))
        (true_height r - true_height l), ?_, ?_, ?_, rfl, rfl, Or.inl rfl, ?_⟩
      · simp only [balance, h2, h3, if_false]
      · exact ⟨ml, mr, by rw [el, er], by rw [el, er]⟩
      · exact ⟨bl, br, by omega, by omega⟩
      · intro _ _; rfl

end node

theorem node.bst_iff_pairwise [LinearOrder α] (n : node α) :
    node.bst n ↔ (node.values n).Pairwise (· < ·) := by
  induction n with
  | null => simp [node.bst, node.values]
  | mk l r x h b ihl ihr =>
    simp only [node.bst, node.values, List.pairwise_append, List.pairwise_cons, ihl, ihr,
      List.mem_cons]
    constructor
    · rintro ⟨h1, h2, h3, h4⟩
      refine ⟨h1, ⟨h4, h2⟩, ?_⟩
      rintro a ha c (rfl | hc)
      · exact h3 a ha
      · exact lt_trans (h3 a ha) (h4 c hc)
    · rintro ⟨h1, ⟨h4, h2⟩, h5⟩
      exact ⟨h1, h2, fun y hy => h5 y hy x (Or.inl rfl), h4⟩

theorem node.count_eq_length (n : node α) : node.count n = (node.values n).length := by
  induction n with
  | null => rfl
  | mk l r x h b ihl ihr =>
    simp only [node.count, node.values, ihl, ihr, List.length_append, List.length_cons]
    omega

theorem or_left_shuffle (a b c d : Prop) : ((a ∨ d) ∨ b ∨ c) ↔ ((a ∨ b ∨ c) ∨ d) := by
  tauto

theorem or_right_shuffle (a b c d : Prop) : (a ∨ b ∨ (c ∨ d)) ↔ ((a ∨ b ∨ c) ∨ d) := by
  tauto

namespace node

/-- The step of `insert_spec` for a value below the node's value. -/
theorem insert_post_left [LinearOrder α] (l r : node α) (x : α) (h b : Int) (v : α)
    (s : Nat) (l1 n1 : node α) (s1 : Nat)
    (m : meta_ok (mk l r x h b)) (bn : balanced (mk l r x h b))
    (hvx : ¬ v = x) (hlt : v < x) (P : insert_post l v s l1 s1)
    (m1 : meta_ok n1) (b1 : balanced n1)
    (hv1 : values n1 = values l1 ++ x :: values r)
    (hc1 : count n1 = count l1 + count r + 1)
    (ht1 : true_height n1 = 1 + max (true_height l1) (true_height r) ∨
        (true_height n1 = max (true_height l1) (true_height r) ∧
          (true_height r - true_height l1 = 2 ∨ true_height r - true_height l1 = -2)))
    (hsame : -1 ≤ true_height r - true_height l1 → true_height r - true_height l1 ≤ 1 →
        n1 = mk l1 r x (1 + max (child_height l1) (child_height r))
          (child_height r - child_height l1)) :
    insert_post (mk l r x h b) v s n1 s1 := by
  obtain ⟨ml, mr, eh, eb⟩ := m
  obtain ⟨bl, br, d1, d2⟩ := bn
  have hh := P.h_height
  constructor
  · exact m1
  · exact b1
  · simp only [true_height]; omega
  · intro y
    rw [hv1]
    simp only [values, List.mem_append, List.mem_cons, P.h_mem y]
    exact or_left_shuffle _ _ _ _
  · have := P.h_size; simp only [count]; omega
  · intro hv
    have hvl : v ∉ values l := fun hm => hv (by simp [values, hm])
    have := P.h_fresh hvl
    simp only [count]; omega
  · rintro ⟨bl1, br1, h3, h4⟩
    rw [bst_iff_pairwise, hv1, List.pairwise_append, List.pairwise_cons]
    refine ⟨(bst_iff_pairwise l1).1 (P.h_bst bl1), ⟨h4, (bst_iff_pairwise r).1 br1⟩, ?_⟩
    intro a ha c hc
    have hax : a < x := by
      rcases (P.h_mem a).1 ha with hm | rfl
      · exact h3 a hm
      · exact hlt
    rcases List.mem_cons.1 hc with rfl | hc
    · exact hax
    · exact lt_trans hax (h4 c hc)
  · rintro ⟨bl1, br1, h3, h4⟩ hv
    have hvl : v ∈ values l := by
      simp only [values, List.mem_append, List.mem_cons] at hv
      rcases hv with hm | hm | hm
      · exact hm
      · exact absurd hm hvx
      · exact absurd (h4 v hm) (lt_asymm hlt)
    have e1 := P.h_dup bl1 hvl
    subst e1
    rw [hsame (by omega) (by omega), eh, eb]

/-- The step of `insert_spec` for a value above the node's value. -/
theorem insert_post_right [LinearOrder α] (l r : node α) (x : α) (h b : Int) (v : α)
    (s : Nat) (r1 n1 : node α) (s1 : Nat)
    (m : meta_ok (mk l r x h b)) (bn : balanced (mk l r x h b))
    (hvx : ¬ v = x) (hgt : x < v) (P : insert_post r v s r1 s1)
    (m1 : meta_ok n1) (b1 : balanced n1)
    (hv1 : values n1 = values l ++ x :: values r1)
    (hc1 : count n1 = count l + count r1 + 1)
    (ht1 : true_height n1 = 1 + max (true_height l) (true_height r1) ∨
        (true_height n1 = max (true_height l) (true_height r1) ∧
          (true_height r1 - true_height l = 2 ∨ true_height r1 - true_height l = -2)))
    (hsame : -1 ≤ true_height r1 - true_height l → true_height r1 - true_height l ≤ 1 →
        n1 = mk l r1 x (1 + max (child_height l) (child_height r1))
          (child_height r1 - child_height l)) :
    insert_post (mk l r x h b) v s n1 s1 := by
  obtain ⟨ml, mr, eh, eb⟩ := m
  obtain ⟨bl, br, d1, d2⟩ := bn
  have hh := P.h_height
  constructor
  · exact m1
  · exact b1
  · simp only [true_height]; omega
  · intro y
    rw [hv1]
    simp only [values, List.mem_append, List.mem_cons, P.h_mem y]
    exact or_right_shuffle _ _ _ _
  · have := P.h_size; simp only [count]; omega
  · intro hv
    have hvr : v ∉ values r := fun hm => hv (by simp [values, hm])
    have := P.h_fresh hvr
    simp only [count]; omega
  · rintro ⟨bl1, br1, h3, h4⟩
    have h4n : ∀ y ∈ values r1, x < y := by
      intro y hy
      rcases (P.h_mem y).1 hy with hm | rfl
      · exact h4 y hm
      · exact hgt
    rw [bst_iff_pairwise, hv1, List.pairwise_append, List.pairwise_cons]
    refine ⟨(bst_iff_pairwise l).1 bl1, ⟨h4n, (bst_iff_pairwise r1).1 (P.h_bst br1)⟩, ?_⟩
    intro a ha c hc
    rcases List.mem_cons.1 hc with rfl | hc
    · exact h3 a ha
    · exact lt_trans (h3 a ha) (h4n c hc)
  · rintro ⟨bl1, br1, h3, h4⟩ hv
    have hvr : v ∈ values r := by
      simp only [values, List.mem_append, List.mem_cons] at hv
      rcases hv with hm | hm | hm
      · exact absurd (h3 v hm) (lt_asymm hgt)
      · exact absurd hm hvx
      · exact hm
    have e1 := P.h_dup br1 hvr
    subst e1
    rw [hsame (by omega) (by omega), eh, eb]

/-- The recursive `insert` on a subtree satisfying I2 and I3 returns a subtree,
and the result satisfies `insert_post`. -/
theorem insert_spec [LinearOrder α] (n : node α) (v : α) (s : Nat)
    (m : meta_ok n) (bn : balanced n) :
    ∃ n1 s1, insert n v s = some (n1, s1) ∧ insert_post n v s n1 s1 := by
  induction n with
  | null =>
    refine ⟨mk null null v 0 0, s + 1, rfl, ?_⟩
    constructor
    · exact ⟨trivial, trivial, by simp [child_height], by simp [child_height]⟩
    · exact ⟨trivial, trivial, by simp [true_height], by simp [true_height]⟩
    · right; simp [true_height]
    · intro y; simp [values]
    · simp [count]
    · intro _; simp [count]
    · intro _; simp [bst, values]
    · intro _ hv; simp [values] at hv
  | mk l r x h b ihl ihr =>
    have ml := m.1
    have mr := m.2.1
    have bl := bn.1
    have br := bn.2.1
    have d1 := bn.2.2.1
    have d2 := bn.2.2.2
    by_cases hvx : v = x
    · refine ⟨mk l r x h b, s, by simp [insert, hvx], ?_⟩
      constructor
      · exact m
      · exact bn
      · left; rfl
      · intro y; simp [values, hvx]; tauto
      · rfl
      · intro hv; exact absurd (by simp [values, hvx]) hv
      · exact id
      · intro _ _; rfl
    · by_cases hlt : v < x
      · obtain ⟨l1, s1, hins, P⟩ := ihl ml bl
        have hh := P.h_height
        obtain ⟨n1, hn1, m1, b1, hv1, hc1, ht1, hsame⟩ :=
          update_balance_spec l1 r x h b P.h_meta mr P.h_bal br (by omega) (by omega)
        refine ⟨n1, s1, ?_, insert_post_left l r x h b v s l1 n1 s1 m bn hvx hlt P m1 b1 hv1
          hc1 ht1 hsame⟩
        simp only [insert, hvx, hlt, if_false, if_true, hins, Option.some_bind, hn1,
          Option.map_some']
      · have hgt : x < v := lt_of_le_of_ne (not_lt.1 hlt) (Ne.symm hvx)
        obtain ⟨r1, s1, hins, P⟩ := ihr mr br
        have hh := P.h_height
        obtain ⟨n1, hn1, m1, b1, hv1, hc1, ht1, hsame⟩ :=
          update_balance_spec l r1 x h b ml P.h_meta bl P.h_bal (by omega) (by omega)
        refine ⟨n1, s1, ?_, insert_post_right l r x h b v s r1 n1 s1 m bn hvx hgt P m1 b1 hv1
          hc1 ht1 hsame⟩
        simp only [insert, hvx, hlt, if_false, hins, Option.some_bind, hn1, Option.map_some']

end node

/-! ## The tree level: invariants of every tree built by `insert` -/

theorem empty_tree_wf [LinearOrder α] : wf (empty_tree : avl_tree α) :=
  ⟨trivial, trivial, trivial, rfl⟩

theorem insert_wf [LinearOrder α] (t : avl_tree α) (v : α) (h : wf t) :
    ∃ t1, insert t v = some t1 ∧ wf t1 ∧
      node.insert_post t.root_ v t.size_ t1.root_ t1.size_ := by
  obtain ⟨hb, hbal, hm, hs⟩ := h
  obtain ⟨n1, s1, hins, P⟩ := node.insert_spec t.root_ v t.size_ hm hbal
  refine ⟨⟨n1, s1⟩, by simp [insert, hins], ⟨P.h_bst hb, P.h_bal, P.h_meta, ?_⟩, P⟩
  have := P.h_size
  show s1 = node.count n1
  omega

theorem insert_all_wf [LinearOrder α] (vs : List α) (t : avl_tree α) (h : wf t) :
    ∃ t1, insert_all t vs = some t1 ∧ wf t1 ∧
      ∀ y, y ∈ node.values t1.root_ ↔ y ∈ node.values t.root_ ∨ y ∈ vs := by
  induction vs generalizing t with
  | nil => exact ⟨t, rfl, h, by simp⟩
  | cons v vs ih =>
    obtain ⟨t1, h1, w1, P⟩ := insert_wf t v h
    obtain ⟨t2, h2, w2, hmem⟩ := ih t1 w1
    refine ⟨t2, by simp [insert_all, h1, h2], w2, ?_⟩
    intro y
    rw [hmem y, P.h_mem y, List.mem_cons]
    tauto

theorem build_wf [LinearOrder α] (vs : List α) :
    ∃ t, build vs = some t ∧ wf t ∧ ∀ y, y ∈ node.values t.root_ ↔ y ∈ vs := by
  obtain ⟨t, h1, w, hmem⟩ := insert_all_wf vs empty_tree empty_tree_wf
  refine ⟨t, h1, w, ?_⟩
  intro y
  rw [hmem y]
  simp [empty_tree, node.values]

theorem wf_values_eq_sort [LinearOrder α] (t : avl_tree α) (vs : List α) (h : wf t)
    (hmem : ∀ y, y ∈ node.values t.root_ ↔ y ∈ vs) :
    node.values t.root_ = vs.toFinset.sort (· ≤ ·) := by
  have hp : (node.values t.root_).Pairwise (· < ·) := (node.bst_iff_pairwise _).1 h.1
  have hs : (node.values t.root_).Sorted (· ≤ ·) := hp.imp le_of_lt
  have hn : (node.values t.root_).Nodup := hp.imp ne_of_lt
  refine List.eq_of_perm_of_sorted ?_ hs (Finset.sort_sorted _ _)
  refine (List.perm_ext_iff_of_nodup hn (Finset.sort_nodup _ _)).2 ?_
  intro y
  rw [hmem y, Finset.mem_sort, List.mem_toFinset]

theorem node.true_height_lt_count (n : node α) : node.true_height n < node.count n := by
  induction n with
  | null => simp [node.true_height, node.count]
  | mk l r x h b ihl ihr =>
    simp only [node.true_height, node.count]
    push_cast
    omega

/-! ## The claims -/

/-- C1. After inserting any finite sequence of values one by one into an empty
tree, `insert` has returned a tree every time, the sequence of values visited by
`inorder_traversal` is strictly ascending, and the BST order I1 holds at every
node. -/
theorem inorder_strictly_ascending [LinearOrder α] (vs : List α) :
    ∃ t, build vs = some t ∧ (inorder t).Sorted (· < ·) ∧ node.bst t.root_ := by
  obtain ⟨t, h1, w, -⟩ := build_wf vs
  refine ⟨t, h1, ?_, w.1⟩
  rw [inorder_eq_values]
  exact (node.bst_iff_pairwise _).1 w.1

/-- C2. In every tree built from the empty tree by a sequence of `insert` calls,
every node's balance factor, computed on the true heights of its subtrees, is
in {-1, 0, 1}. -/
theorem balance_factor_in_range [LinearOrder α] (vs : List α) :
    ∃ t, build vs = some t ∧ node.balanced t.root_ := by
  obtain ⟨t, h1, w, -⟩ := build_wf vs
  exact ⟨t, h1, w.2.1⟩

/-- C3. In every tree built from the empty tree by a sequence of `insert` calls,
every node's `height` field is `1 + max` of its children's stored heights and its
`balance` field is the right stored height minus the left one, an absent child
counting as `-1`; a tree of one node has stored height 0 and balance 0. -/
theorem stored_metadata_consistent [LinearOrder α] (vs : List α) (v : α) :
    (∃ t, build vs = some t ∧ node.meta_ok t.root_) ∧
      build [v] = some ⟨node.mk node.null node.null v 0 0, 1⟩ := by
  obtain ⟨t, h1, w, -⟩ := build_wf vs
  exact ⟨⟨t, h1, w.2.2.1⟩, rfl⟩

/-- C4. For the tree `t` built from any sequence `vs` and any value `v`:
`insert t v` returns a tree whose stored values are those of `t` together with
`v`; the in-order visit sequence has no repeated value and one entry per node;
it is the sorted list of the distinct inserted values; and every visitor is
called on exactly that list, in that order. -/
theorem insert_adds_exactly_the_value [LinearOrder α] (vs : List α) (v : α) :
    ∃ t t1, build vs = some t ∧ insert t v = some t1 ∧
      (∀ y, y ∈ inorder t1 ↔ y ∈ inorder t ∨ y = v) ∧
      (inorder t).Nodup ∧ (inorder t).length = node.count t.root_ ∧
      inorder t = vs.toFinset.sort (· ≤ ·) ∧
      ∀ (σ : Type) (f : α → σ → σ) (s : σ),
        inorder_traversal t f s = (vs.toFinset.sort (· ≤ ·)).foldl (fun acc x => f x acc) s := by
  obtain ⟨t, h1, w, hmem⟩ := build_wf vs
  obtain ⟨t1, h2, -, P⟩ := insert_wf t v w
  have hsort := wf_values_eq_sort t vs w hmem
  refine ⟨t, t1, h1, h2, ?_, ?_, ?_, ?_, ?_⟩
  · intro y
    rw [inorder_eq_values, inorder_eq_values]
    exact P.h_mem y
  · rw [inorder_eq_values, hsort]
    exact Finset.sort_nodup _ _
  · rw [inorder_eq_values, node.count_eq_length]
  · rw [inorder_eq_values, hsort]
  · intro σ f s
    rw [← hsort]
    exact node.inorder_traversal_eq_foldl t.root_ f s

/-- C6. Inserting a value that was already inserted is a no-op: `insert` returns
the very same tree (root, shape, metadata and `size_`), so `size()` and the
in-order sequence are unchanged, and a second `insert` of the same value
changes nothing. -/
theorem insert_duplicate_is_noop [LinearOrder α] (vs : List α) (v : α) (hv : v ∈ vs) :
    ∃ t, build vs = some t ∧ insert t v = some t ∧
      (insert t v).map size = some (size t) ∧
      (insert t v).map inorder = some (inorder t) ∧
      (insert t v).bind (fun t1 => insert t1 v) = insert t v := by
  obtain ⟨t, h1, w, hmem⟩ := build_wf vs
  obtain ⟨t1, h2, -, P⟩ := insert_wf t v w
  have e : t1.root_ = t.root_ := P.h_dup w.1 ((hmem v).2 hv)
  have hs := P.h_size
  have e2 : t1 = t := by
    cases t1; cases t
    simp only at e hs
    subst e
    simp only [mk.injEq, true_and]
    omega
  subst e2
  exact ⟨t1, h1, h2, by simp [h2], by simp [h2], by simp [h2]⟩

/-- C7. For the tree `t` built from any sequence `vs`: `size()` is the number of
distinct values of `vs` and the number of nodes; one more `insert` of `v` raises
`size()` by exactly one when `v` was not inserted before and leaves it unchanged
otherwise; `empty()` is true exactly when `size()` is 0. -/
theorem size_counts_distinct_values [LinearOrder α] (vs : List α) (v : α) :
    ∃ t t1, build vs = some t ∧ insert t v = some t1 ∧
      size t = vs.toFinset.card ∧ size t = node.count t.root_ ∧
      size t1 = (if v ∈ vs then size t else size t + 1) ∧
      (empty t = true ↔ size t = 0) := by
  obtain ⟨t, h1, w, hmem⟩ := build_wf vs
  obtain ⟨t1, h2, w1, P⟩ := insert_wf t v w
  have hsort := wf_values_eq_sort t vs w hmem
  have hc : node.count t.root_ = vs.toFinset.card := by
    rw [node.count_eq_length, hsort, Finset.length_sort]
  refine ⟨t, t1, h1, h2, ?_, w.2.2.2, ?_, ?_⟩
  · show t.size_ = _
    rw [w.2.2.2, hc]
  · show t1.size_ = if v ∈ vs then t.size_ else t.size_ + 1
    have hs := P.h_size
    by_cases hv : v ∈ vs
    · have e : t1.root_ = t.root_ := P.h_dup w.1 ((hmem v).2 hv)
      rw [e] at hs
      simp only [hv, if_true]
      omega
    · have hf := P.h_fresh (fun hm => hv ((hmem v).1 hm))
      simp only [hv, if_false]
      omega
  · simp [empty, size]

/-- Witness of C6 on the tree built from 2, 1, 3 and the stored value 1. -/
theorem insert_duplicate_is_noop_witness :
    (1 : Int) ∈ [2, 1, 3] ∧
    ∃ t, build ([2, 1, 3] : List Int) = some t ∧ insert t 1 = some t ∧
      (insert t 1).map size = some (size t) ∧
      (insert t 1).map inorder = some (inorder t) ∧
      (insert t 1).bind (fun t1 => insert t1 1) = insert t 1 :=
  ⟨by decide, insert_duplicate_is_noop [2, 1, 3] 1 (by decide)⟩

/-- C5 (code bug). `contains` compares the searched value with the left child
pointer.  Whatever that comparison answers from the value and from whether the
pointer is null, `contains` returns false for an inserted value in one of three
queries: 1 or 3 in the tree built from 2, 1, 3, or 3 in the tree built from
4, 3, 5. -/
theorem contains_misses_inserted_value (cmp : Int → Bool → Bool) :
    (build ([2, 1, 3] : List Int)).map
        (fun t => contains (fun v l => cmp v (node.is_null l)) t 1) = some false ∨
      (build ([2, 1, 3] : List Int)).map
        (fun t => contains (fun v l => cmp v (node.is_null l)) t 3) = some false ∨
      (build ([4, 3, 5] : List Int)).map
        (fun t => contains (fun v l => cmp v (node.is_null l)) t 3) = some false := by
  have e1 : build ([2, 1, 3] : List Int) =
      some ⟨node.mk (node.mk node.null node.null 1 0 0) (node.mk node.null node.null 3 0 0)
        2 1 0, 3⟩ := by decide
  have e2 : build ([4, 3, 5] : List Int) =
      some ⟨node.mk (node.mk node.null node.null 3 0 0) (node.mk node.null node.null 5 0 0)
        4 1 0, 3⟩ := by decide
  rw [e1, e2]
  cases h1 : cmp 1 false <;> cases h3 : cmp 3 false <;>
    simp [contains, contains_from, node.is_null, h1, h3]

/-- C8. The tree of the demonstration program: built from 200, 100, 300, 400,
500, 50, 25, 600, 700, 15, 450, 350 it has size 12, is not empty, is visited in
order as 15, 25, 50, 100, 200, 300, 350, 400, 450, 500, 600, 700, and `height()`
is the height recomputed from the tree shape, which is 4. -/
theorem demo_tree_observations :
    (build ([200, 100, 300, 400, 500, 50, 25, 600, 700, 15, 450, 350] : List Int)).map size
        = some 12 ∧
      (build ([200, 100, 300, 400, 500, 50, 25, 600, 700, 15, 450, 350] : List Int)).map empty
        = some false ∧
      (build ([200, 100, 300, 400, 500, 50, 25, 600, 700, 15, 450, 350] : List Int)).map inorder
        = some [15, 25, 50, 100, 200, 300, 350, 400, 450, 500, 600, 700] ∧
      (build ([200, 100, 300, 400, 500, 50, 25, 600, 700, 15, 450, 350] : List Int)).map
          (fun t => (height t : Int))
        = (build ([200, 100, 300, 400, 500, 50, 25, 600, 700, 15, 450, 350] : List Int)).map
          (fun t => node.true_height t.root_) ∧
      (build ([200, 100, 300, 400, 500, 50, 25, 600, 700, 15, 450, 350] : List Int)).map height
        = some 4 := by
  decide

/-- C9. `height()` is 0 for the empty tree and for a tree of one node; for the
tree built from any non-empty sequence with fewer than `2^64` distinct values
(the node count fits `size_t`), the stored root height is not negative and
`height()` is the true height of the tree shape. -/
theorem height_is_true_height [LinearOrder α] (v : α) (vs : List α)
    (hfit : (v :: vs).toFinset.card < 2 ^ 64) :
    height (empty_tree : avl_tree α) = 0 ∧ (build [v]).map height = some 0 ∧
      ∃ t, build (v :: vs) = some t ∧ t.root_ ≠ node.null ∧
        0 ≤ node.child_height t.root_ ∧
        node.child_height t.root_ = node.true_height t.root_ ∧
        (height t : Int) = node.true_height t.root_ := by
  refine ⟨rfl, rfl, ?_⟩
  obtain ⟨t, h1, w, hmem⟩ := build_wf (v :: vs)
  have hsort := wf_values_eq_sort t (v :: vs) w hmem
  have hc : node.count t.root_ ≤ (v :: vs).toFinset.card := by
    rw [node.count_eq_length, hsort, Finset.length_sort]
  have hv : v ∈ node.values t.root_ := (hmem v).2 (List.mem_cons_self v vs)
  have hm : node.meta_ok t.root_ := w.2.2.1
  refine ⟨t, h1, ?_⟩
  obtain ⟨root, sz⟩ := t
  simp only at hc hv hm ⊢
  cases root with
  | null => simp [node.values] at hv
  | mk l r x h b =>
    have hlt := node.true_height_lt_count (node.mk l r x h b)
    have hch := node.child_height_eq (node.mk l r x h b) hm
    have hl := node.true_height_ge l
    have h3 : ((node.count (node.mk l r x h b) : Nat) : Int) < 2 ^ 64 := by
      have h4 : node.count (node.mk l r x h b) < 2 ^ 64 := lt_of_le_of_lt hc hfit
      exact_mod_cast h4
    simp only [node.child_height, node.true_height] at hch hlt ⊢
    have h0 : 0 ≤ h := by omega
    have hb : h < 2 ^ 64 := by omega
    refine ⟨by simp, h0, hch, ?_⟩
    simp only [height]
    rw [Int.emod_eq_of_lt h0 hb, Int.toNat_of_nonneg h0]
    exact hch

/-- Witness of C9 on the sequence 3, 1, 2. -/
theorem height_is_true_height_witness :
    ((3 : Int) :: [1, 2]).toFinset.card < 2 ^ 64 ∧
    (height (empty_tree : avl_tree Int) = 0 ∧ (build [(3 : Int)]).map height = some 0 ∧
      ∃ t, build ((3 : Int) :: [1, 2]) = some t ∧ t.root_ ≠ node.null ∧
        0 ≤ node.child_height t.root_ ∧
        node.child_height t.root_ = node.true_height t.root_ ∧
        (height t : Int) = node.true_height t.root_) :=
  ⟨by decide, height_is_true_height 3 [1, 2] (by decide)⟩

/-- C10 (code bug). On the tree built from 4, 2, 5, 1 the source's
`preorder_traversal` visits 4, 1, 2, 5: after the root it runs the in-order
traversal on each child.  The classic pre-order of that tree is 4, 2, 1, 5. -/
theorem preorder_visits_children_in_order :
    (build ([4, 2, 5, 1] : List Int)).map preorder = some [4, 1, 2, 5] ∧
      (build ([4, 2, 5, 1] : List Int)).map (fun t => node.spec_preorder t.root_)
        = some [4, 2, 1, 5] := by
  decide

/-- C11 (code bug). On the tree built from 4, 2, 5, 3 the source's
`postorder_traversal` visits 2, 3, 5, 4: it runs the in-order traversal on each
child and then visits the root.  The classic post-order of that tree is
3, 2, 5, 4. -/
theorem postorder_visits_children_in_order :
    (build ([4, 2, 5, 3] : List Int)).map postorder = some [2, 3, 5, 4] ∧
      (build ([4, 2, 5, 3] : List Int)).map (fun t => node.spec_postorder t.root_)
        = some [3, 2, 5, 4] := by
  decide

/-- C14. A right rotation followed by a left rotation of the new root, and a
left rotation followed by a right rotation, return a subtree with the shape and
the values of the original; with consistent metadata in the original, the
`height` and `balance` fields are restored too and the result is the original. -/
theorem rotations_are_mutually_inverse (l e r : node α) (x y : α) (h1 b1 h2 b2 : Int) :
    (∃ n, (node.right_rotation (node.mk (node.mk l e x h1 b1) r y h2 b2)).bind
          node.left_rotation = some n ∧
        node.strip n = node.strip (node.mk (node.mk l e x h1 b1) r y h2 b2) ∧
        (node.meta_ok (node.mk (node.mk l e x h1 b1) r y h2 b2) →
          n = node.mk (node.mk l e x h1 b1) r y h2 b2)) ∧
    (∃ n, (node.left_rotation (node.mk l (node.mk e r y h1 b1) x h2 b2)).bind
          node.right_rotation = some n ∧
        node.strip n = node.strip (node.mk l (node.mk e r y h1 b1) x h2 b2) ∧
        (node.meta_ok (node.mk l (node.mk e r y h1 b1) x h2 b2) →
          n = node.mk l (node.mk e r y h1 b1) x h2 b2)) := by
  constructor
  · refine ⟨_, rfl, rfl, ?_⟩
    rintro ⟨⟨-, -, e1, e2⟩, -, e3, e4⟩
    simp only [node.child_height] at e3 e4
    rw [e3, e4, e1, e2]
    simp only [node.child_height]
  · refine ⟨_, rfl, rfl, ?_⟩
    rintro ⟨-, ⟨-, -, e1, e2⟩, e3, e4⟩
    simp only [node.child_height] at e3 e4
    rw [e3, e4, e1, e2]
    simp only [node.child_height]

/-- C12 (amended). For a node with refreshed metadata whose subtrees satisfy I2
and I3 and whose true heights differ by at most two, `balance` returns a subtree
in which every node has a balance factor in {-1, 0, 1} and consistent metadata. -/
theorem balance_restores_avl (l r : node α) (x : α) (h b : Int)
    (hm : node.meta_ok (node.mk l r x h b)) (hl : node.balanced l) (hr : node.balanced r)
    (lo : -2 ≤ node.true_height r - node.true_height l)
    (hi : node.true_height r - node.true_height l ≤ 2) :
    ∃ n1, node.balance (node.mk l r x h b) = some n1 ∧ node.balanced n1 ∧
      node.meta_ok n1 := by
  obtain ⟨n1, h1, m1, b1, -⟩ := node.update_balance_spec l r x h b hm.1 hm.2.1 hl hr lo hi
  refine ⟨n1, ?_, b1, m1⟩
  rw [node.update_mk, ← hm.2.2.1, ← hm.2.2.2, Option.some_bind] at h1
  exact h1

/-- Witness of C12 (amended) on a left-heavy node of three values. -/
theorem balance_restores_avl_witness :
    ∃ n1, node.balance (node.mk (node.mk (node.mk node.null node.null (1 : Int) 0 0)
        node.null 2 1 (-1)) node.null 3 2 (-2)) = some n1 ∧ node.balanced n1 ∧
      node.meta_ok n1 :=
  balance_restores_avl _ _ _ _ _ (by decide) (by decide) (by decide) (by decide) (by decide)

/-- Counterexample to C12 as stated: a node with refreshed metadata whose
subtrees satisfy I2 and I3 and whose balance is -3 is returned unchanged. -/
theorem balance_returns_unbalanced_node :
    node.update (node.mk (node.mk (node.mk (node.mk node.null node.null (0 : Int) 0 0)
          node.null 1 1 (-1)) (node.mk node.null node.null 3 0 0) 2 2 (-1)) node.null 4 3 (-3))
        = some (node.mk (node.mk (node.mk (node.mk node.null node.null (0 : Int) 0 0)
          node.null 1 1 (-1)) (node.mk node.null node.null 3 0 0) 2 2 (-1)) node.null 4 3 (-3)) ∧
      node.balanced (node.mk (node.mk (node.mk node.null node.null (0 : Int) 0 0)
          node.null 1 1 (-1)) (node.mk node.null node.null 3 0 0) 2 2 (-1)) ∧
      node.meta_ok (node.mk (node.mk (node.mk node.null node.null (0 : Int) 0 0)
          node.null 1 1 (-1)) (node.mk node.null node.null 3 0 0) 2 2 (-1)) ∧
      node.balanced (node.null : node Int) ∧ node.meta_ok (node.null : node Int) ∧
      node.balance (node.mk (node.mk (node.mk (node.mk node.null node.null (0 : Int) 0 0)
          node.null 1 1 (-1)) (node.mk node.null node.null 3 0 0) 2 2 (-1)) node.null 4 3 (-3))
        = some (node.mk (node.mk (node.mk (node.mk node.null node.null (0 : Int) 0 0)
          node.null 1 1 (-1)) (node.mk node.null node.null 3 0 0) 2 2 (-1)) node.null 4 3 (-3)) ∧
      ¬ node.balanced (node.mk (node.mk (node.mk (node.mk node.null node.null (0 : Int) 0 0)
          node.null 1 1 (-1)) (node.mk node.null node.null 3 0 0) 2 2 (-1)) node.null 4 3 (-3)) := by
  decide

theorem node.insert_log_erase [LinearOrder α] (n : node α) (v : α) (s : Nat) :
    (node.insert_log n v s).map (fun p => (p.1, p.2.1)) = node.insert n v s := by
  induction n with
  | null => rfl
  | mk l r x h b ihl ihr =>
    simp only [node.insert_log, node.insert]
    split
    · rfl
    · split
      · rw [← ihl]
        cases node.insert_log l v s with
        | none => rfl
        | some p =>
          simp only [Option.some_bind, Option.map_some', node.update_mk]
          cases node.balance (node.mk p.1 r x (1 + max (node.child_height p.1)
            (node.child_height r)) (node.child_height r - node.child_height p.1)) <;> rfl
      · rw [← ihr]
        cases node.insert_log r v s with
        | none => rfl
        | some p =>
          simp only [Option.some_bind, Option.map_some', node.update_mk]
          cases node.balance (node.mk l p.1 x (1 + max (node.child_height l)
            (node.child_height p.1)) (node.child_height p.1 - node.child_height l)) <;> rfl

theorem node.rotates_iff (n : node α) :
    node.rotates n = true ↔ node.stored_balance n = -2 ∨ node.stored_balance n = 2 := by
  simp [node.rotates]

namespace node

theorem update_balance_rotated (l r : node α) (x : α) (h b : Int)
    (ml : meta_ok l) (mr : meta_ok r) (n1 : node α)
    (hn : (update (mk l r x h b)).bind balance = some n1) :
    (true_height r - true_height l = -2 → stored_balance l ≠ 0 →
        true_height n1 = true_height l) ∧
      (true_height r - true_height l = 2 → stored_balance r ≠ 0 →
        true_height n1 = true_height r) := by
  have el := child_height_eq l ml
  have er := child_height_eq r mr
  rw [update_mk, Option.some_bind, el, er] at hn
  constructor
  · intro h2 hnz
    cases l with
    | null =>
      exfalso
      have := true_height_ge r
      simp only [true_height] at h2
      omega
    | mk ll lr lx lh lb =>
      obtain ⟨mll, mlr, -, ebl⟩ := ml
      rw [child_height_eq ll mll, child_height_eq lr mlr] at ebl
      simp only [stored_balance] at hnz
      simp only [true_height] at h2 hn ⊢
      by_cases hlb : lb ≤ 0
      · simp only [balance, h2, if_true, hlb, left_left_case, right_rotation, update_mk,
          Option.some_bind, child_height, Option.some.injEq] at hn
        subst hn
        simp only [true_height]
        omega
      · cases lr with
        | null =>
          exfalso
          have := true_height_ge ll
          simp only [true_height] at ebl
          omega
        | mk e ar ax ah ab =>
          obtain ⟨me, mar, -, -⟩ := mlr
          simp only [true_height] at h2 ebl hn ⊢
          simp only [balance, h2, if_true, hlb, if_false, left_right_case, left_left_case,
            left_rotation, right_rotation, update_mk, Option.some_bind, child_height,
            Option.some.injEq] at hn
          subst hn
          simp only [true_height]
          omega
  · intro h3 hnz
    have hne : ¬ ((2 : Int) = -2) := by decide
    cases r with
    | null =>
      exfalso
      have := true_height_ge l
      simp only [true_height] at h3
      omega
    | mk rl rr rx rh rb =>
      obtain ⟨mrl, mrr, -, ebr⟩ := mr
      rw [child_height_eq rl mrl, child_height_eq rr mrr] at ebr
      simp only [stored_balance] at hnz
      simp only [true_height] at h3 hn ⊢
      by_cases hrb : rb ≥ 0
      · simp only [balance, h3, hne, if_true, if_false, hrb, right_right_case, left_rotation,
          update_mk, Option.some_bind, child_height, Option.some.injEq] at hn
        subst hn
        simp only [true_height]
        omega
      · cases rl with
        | null =>
          exfalso
          have := true_height_ge rr
          simp only [true_height] at ebr
          omega
        | mk bl2 e ax ah ab =>
          obtain ⟨mbl, me, -, -⟩ := mrl
          simp only [true_height] at h3 ebr hn ⊢
          simp only [balance, h3, hne, if_true, hrb, if_false, right_left_case,
            right_right_case, left_rotation, right_rotation, update_mk, Option.some_bind,
            child_height, Option.some.injEq] at hn
          subst hn
          simp only [true_height]
          omega

theorem stored_balance_update (l r : node α) (x : α) (ml : meta_ok l) (mr : meta_ok r) :
    stored_balance (mk l r x (1 + max (child_height l) (child_height r))
      (child_height r - child_height l)) = true_height r - true_height l := by
  simp only [stored_balance, child_height_eq l ml, child_height_eq r mr]

theorem examined_child_left (l r : node α) (x : α) (h : Int) (hl : l ≠ null) :
    examined_child (mk l r x h (-2)) = some l := by
  cases l with
  | null => exact absurd rfl hl
  | mk ll lr lx lh lb => simp [examined_child]

theorem examined_child_right (l r : node α) (x : α) (h : Int) (hr : r ≠ null) :
    examined_child (mk l r x h 2) = some r := by
  cases r with
  | null => exact absurd rfl hr
  | mk rl rr rx rh rb => simp [examined_child]

theorem ne_null_of_height (n : node α) (h : 0 ≤ true_height n) : n ≠ null := by
  rintro rfl
  simp [true_height] at h

/-- The step of `insert_log_spec` for a value below the node's value. -/
theorem log_post_left [LinearOrder α] (l r : node α) (x : α) (h b : Int) (v : α)
    (s : Nat) (l1 n1 : node α) (s1 : Nat) (logl : List (node α))
    (m : meta_ok (mk l r x h b)) (bn : balanced (mk l r x h b))
    (P : insert_post l v s l1 s1) (Q : log_post l l1 logl)
    (hn : (update (mk l1 r x h b)).bind balance = some n1) :
    log_post (mk l r x h b) n1
      (logl ++ [mk l1 r x (1 + max (child_height l1) (child_height r))
        (child_height r - child_height l1)]) := by
  obtain ⟨ml, mr, eh, eb⟩ := m
  obtain ⟨bl, br, d1, d2⟩ := bn
  have hh := P.h_height
  have hrge := true_height_ge r
  have hlge := true_height_ge l
  obtain ⟨n2, hn2, m1, b1, -, -, ht1, hsame⟩ :=
    update_balance_spec l1 r x h b P.h_meta mr P.h_bal br (by omega) (by omega)
  have e12 : n2 = n1 := Option.some.inj (hn2.symm.trans hn)
  subst e12
  have hsb := stored_balance_update l1 r x P.h_meta mr
  have K : true_height r - true_height l1 = -2 → stored_balance l1 ≠ 0 := by
    intro hd
    rcases Q.h_grow (by omega) with h0 | h0
    · exfalso
      subst h0
      simp only [true_height] at hh
      omega
    · exact h0
  have T : true_height r - true_height l1 = -2 → true_height n2 = true_height l1 :=
    fun hd => (update_balance_rotated l1 r x h b P.h_meta mr n2 hn).1 hd (K hd)
  have hcn := child_height_eq n2 m1
  have htn : true_height (mk l r x h b) = 1 + max (true_height l) (true_height r) := rfl
  rw [child_height_eq l ml, child_height_eq r mr] at eh eb
  constructor
  · intro m hm
    rcases List.mem_append.1 hm with hm | hm
    · exact Q.h_called m hm
    · rw [List.mem_singleton] at hm
      subst hm
      refine ⟨by simp, ?_⟩
      rw [update_mk, Option.some_bind] at hn
      rw [hn]; rfl
  · intro m hm
    rcases List.mem_append.1 hm with hm | hm
    · exact Q.h_range m hm
    · rw [List.mem_singleton] at hm
      subst hm
      rw [hsb]
      omega
  · intro m hm hrot
    rcases List.mem_append.1 hm with hm | hm
    · exact Q.h_child m hm hrot
    · rw [List.mem_singleton] at hm
      subst hm
      rw [rotates_iff, hsb] at hrot
      have hd : true_height r - true_height l1 = -2 := by omega
      have hb2 : child_height r - child_height l1 = -2 := by
        rw [child_height_eq l1 P.h_meta, child_height_eq r mr]; exact hd
      rw [hb2]
      exact ⟨l1, examined_child_left l1 r x _ (ne_null_of_height l1 (by omega)), K hd⟩
  · intro hg
    right
    rw [htn] at hg
    by_cases hd : true_height r - true_height l1 = -2
    · have := T hd
      omega
    · rw [hsame (by omega) (by omega), hsb]
      rcases ht1 with ht | ⟨-, ht⟩
      · omega
      · omega
  · rintro ⟨m, hm, hrot⟩
    have hkey : true_height n2 = true_height (mk l r x h b) := by
      rw [htn]
      rcases List.mem_append.1 hm with hm | hm
      · have := (Q.h_rot ⟨m, hm, hrot⟩).1
        rcases ht1 with ht | ⟨-, ht⟩
        · omega
        · omega
      · rw [List.mem_singleton] at hm
        subst hm
        rw [rotates_iff, hsb] at hrot
        have := T (by omega)
        omega
    refine ⟨hkey, ?_⟩
    rw [hcn, hkey]
    simp only [child_height, true_height]
    exact eh.symm
  · rw [List.dropLast_concat]
    rintro ⟨m, hm, hrot⟩
    have := (Q.h_rot ⟨m, hm, hrot⟩).1
    rw [hsame (by omega) (by omega), hsb]
    simp only [stored_balance]
    omega
  · rw [List.filter_append]
    simp only [List.length_append]
    have hq := Q.h_one
    by_cases hr0 : rotates (mk l1 r x (1 + max (child_height l1) (child_height r))
        (child_height r - child_height l1)) = true
    · have hnil : logl.filter rotates = [] := by
        rw [List.filter_eq_nil_iff]
        intro m hm hrot
        have := (Q.h_rot ⟨m, hm, hrot⟩).1
        rw [rotates_iff, hsb] at hr0
        omega
      rw [hnil]
      simp [hr0]
    · simp only [List.filter_cons, hr0, List.filter_nil]
      simpa using hq

/-- The step of `insert_log_spec` for a value above the node's value. -/
theorem log_post_right [LinearOrder α] (l r : node α) (x : α) (h b : Int) (v : α)
    (s : Nat) (r1 n1 : node α) (s1 : Nat) (logr : List (node α))
    (m : meta_ok (mk l r x h b)) (bn : balanced (mk l r x h b))
    (P : insert_post r v s r1 s1) (Q : log_post r r1 logr)
    (hn : (update (mk l r1 x h b)).bind balance = some n1) :
    log_post (mk l r x h b) n1
      (logr ++ [mk l r1 x (1 + max (child_height l) (child_height r1))
        (child_height r1 - child_height l)]) := by
  obtain ⟨ml, mr, eh, eb⟩ := m
  obtain ⟨bl, br, d1, d2⟩ := bn
  have hh := P.h_height
  have hrge := true_height_ge r
  have hlge := true_height_ge l
  obtain ⟨n2, hn2, m1, b1, -, -, ht1, hsame⟩ :=
    update_balance_spec l r1 x h b ml P.h_meta bl P.h_bal (by omega) (by omega)
  have e12 : n2 = n1 := Option.some.inj (hn2.symm.trans hn)
  subst e12
  have hsb := stored_balance_update l r1 x ml P.h_meta
  have K : true_height r1 - true_height l = 2 → stored_balance r1 ≠ 0 := by
    intro hd
    rcases Q.h_grow (by omega) with h0 | h0
    · exfalso
      subst h0
      simp only [true_height] at hh
      omega
    · exact h0
  have T : true_height r1 - true_height l = 2 → true_height n2 = true_height r1 :=
    fun hd => (update_balance_rotated l r1 x h b ml P.h_meta n2 hn).2 hd (K hd)
  have hcn := child_height_eq n2 m1
  have htn : true_height (mk l r x h b) = 1 + max (true_height l) (true_height r) := rfl
  rw [child_height_eq l ml, child_height_eq r mr] at eh eb
  constructor
  · intro m hm
    rcases List.mem_append.1 hm with hm | hm
    · exact Q.h_called m hm
    · rw [List.mem_singleton] at hm
      subst hm
      refine ⟨by simp, ?_⟩
      rw [update_mk, Option.some_bind] at hn
      rw [hn]; rfl
  · intro m hm
    rcases List.mem_append.1 hm with hm | hm
    · exact Q.h_range m hm
    · rw [List.mem_singleton] at hm
      subst hm
      rw [hsb]
      omega
  · intro m hm hrot
    rcases List.mem_append.1 hm with hm | hm
    · exact Q.h_child m hm hrot
    · rw [List.mem_singleton] at hm
      subst hm
      rw [rotates_iff, hsb] at hrot
      have hd : true_height r1 - true_height l = 2 := by omega
      have hb2 : child_height r1 - child_height l = 2 := by
        rw [child_height_eq l ml, child_height_eq r1 P.h_meta]; exact hd
      rw [hb2]
      exact ⟨r1, examined_child_right l r1 x _ (ne_null_of_height r1 (by omega)), K hd⟩
  · intro hg
    right
    rw [htn] at hg
    by_cases hd : true_height r1 - true_height l = 2
    · have := T hd
      omega
    · rw [hsame (by omega) (by omega), hsb]
      rcases ht1 with ht | ⟨-, ht⟩
      · omega
      · omega
  · rintro ⟨m, hm, hrot⟩
    have hkey : true_height n2 = true_height (mk l r x h b) := by
      rw [htn]
      rcases List.mem_append.1 hm with hm | hm
      · have := (Q.h_rot ⟨m, hm, hrot⟩).1
        rcases ht1 with ht | ⟨-, ht⟩
        · omega
        · omega
      · rw [List.mem_singleton] at hm
        subst hm
        rw [rotates_iff, hsb] at hrot
        have := T (by omega)
        omega
    refine ⟨hkey, ?_⟩
    rw [hcn, hkey]
    simp only [child_height, true_height]
    exact eh.symm
  · rw [List.dropLast_concat]
    rintro ⟨m, hm, hrot⟩
    have := (Q.h_rot ⟨m, hm, hrot⟩).1
    rw [hsame (by omega) (by omega), hsb]
    simp only [stored_balance]
    omega
  · rw [List.filter_append]
    simp only [List.length_append]
    have hq := Q.h_one
    by_cases hr0 : rotates (mk l r1 x (1 + max (child_height l) (child_height r1))
        (child_height r1 - child_height l)) = true
    · have hnil : logr.filter rotates = [] := by
        rw [List.filter_eq_nil_iff]
        intro m hm hrot
        have := (Q.h_rot ⟨m, hm, hrot⟩).1
        rw [rotates_iff, hsb] at hr0
        omega
      rw [hnil]
      simp [hr0]
    · simp only [List.filter_cons, hr0, List.filter_nil]
      simpa using hq

/-- The recursive `insert` with its ghost log, on a subtree satisfying I2 and
I3: it returns, its result satisfies `insert_post` and its log `log_post`. -/
theorem insert_log_spec [LinearOrder α] (n : node α) (v : α) (s : Nat)
    (m : meta_ok n) (bn : balanced n) :
    ∃ n1 s1 log, insert_log n v s = some (n1, s1, log) ∧ insert n v s = some (n1, s1) ∧
      insert_post n v s n1 s1 ∧ log_post n n1 log := by
  have key : ∃ n1 s1 log, insert_log n v s = some (n1, s1, log) ∧ log_post n n1 log := by
    induction n with
    | null =>
      refine ⟨mk null null v 0 0, s + 1, [], rfl, ?_⟩
      constructor
      · intro m hm; simp at hm
      · intro m hm; simp at hm
      · intro m hm; simp at hm
      · intro _; left; rfl
      · rintro ⟨m, hm, -⟩; simp at hm
      · rintro ⟨m, hm, -⟩; simp at hm
      · simp
    | mk l r x h b ihl ihr =>
      by_cases hvx : v = x
      · refine ⟨mk l r x h b, s, [], by simp [insert_log, hvx], ?_⟩
        constructor
        · intro m hm; simp at hm
        · intro m hm; simp at hm
        · intro m hm; simp at hm
        · intro hg; omega
        · rintro ⟨m, hm, -⟩; simp at hm
        · rintro ⟨m, hm, -⟩; simp at hm
        · simp
      · by_cases hlt : v < x
        · obtain ⟨l1, s1, logl, hins, Q⟩ := ihl m.1 bn.1
          have hi : insert l v s = some (l1, s1) := by
            rw [← insert_log_erase, hins]; rfl
          obtain ⟨l2, s2, hi2, P⟩ := insert_spec l v s m.1 bn.1
          obtain ⟨rfl, rfl⟩ : l2 = l1 ∧ s2 = s1 := by
            have := hi2.symm.trans hi
            simpa using this
          have hh := P.h_height
          have d1 := bn.2.2.1
          have d2 := bn.2.2.2
          obtain ⟨n1, hn1, -⟩ :=
            update_balance_spec l2 r x h b P.h_meta m.2.1 P.h_bal bn.2.1 (by omega) (by omega)
          refine ⟨n1, s2, _, ?_, log_post_left l r x h b v s l2 n1 s2 logl m bn P Q hn1⟩
          rw [update_mk, Option.some_bind] at hn1
          simp only [insert_log, hvx, hlt, if_false, if_true, hins, Option.some_bind,
            update_mk, hn1, Option.map_some']
        · obtain ⟨r1, s1, logr, hins, Q⟩ := ihr m.2.1 bn.2.1
          have hi : insert r v s = some (r1, s1) := by
            rw [← insert_log_erase, hins]; rfl
          obtain ⟨r2, s2, hi2, P⟩ := insert_spec r v s m.2.1 bn.2.1
          obtain ⟨rfl, rfl⟩ : r2 = r1 ∧ s2 = s1 := by
            have := hi2.symm.trans hi
            simpa using this
          have hh := P.h_height
          have d1 := bn.2.2.1
          have d2 := bn.2.2.2
          obtain ⟨n1, hn1, -⟩ :=
            update_balance_spec l r2 x h b m.1 P.h_meta bn.1 P.h_bal (by omega) (by omega)
          refine ⟨n1, s2, _, ?_, log_post_right l r x h b v s r2 n1 s2 logr m bn P Q hn1⟩
          rw [update_mk, Option.some_bind] at hn1
          simp only [insert_log, hvx, hlt, if_false, hins, Option.some_bind,
            update_mk, hn1, Option.map_some']
  obtain ⟨n1, s1, log, h1, Q⟩ := key
  have hi : insert n v s = some (n1, s1) := by
    rw [← insert_log_erase, h1]; rfl
  obtain ⟨n2, s2, hi2, P⟩ := insert_spec n v s m bn
  obtain ⟨rfl, rfl⟩ : n2 = n1 ∧ s2 = s1 := by
    have := hi2.symm.trans hi
    simpa using this
  exact ⟨n2, s2, log, h1, hi, P, Q⟩

end node

theorem node.balance_of_not_rotates (l r : node α) (x : α) (h b : Int)
    (hr : node.rotates (node.mk l r x h b) = false) :
    node.balance (node.mk l r x h b) = some (node.mk l r x h b) := by
  simp only [node.rotates, node.stored_balance, Bool.or_eq_false_iff, decide_eq_false_iff_not]
    at hr
  simp only [node.balance, hr.1, hr.2, if_false]

/-- C15. An `insert` into a tree built by `insert` never violates a
precondition: it returns a tree (an absent node passed to `update` or `balance`
and every dereference of a null pointer would give `none`); every node passed to
`balance` is present, `balance` returns on it, and when it rotates, the child it
examines is present. -/
theorem insert_never_violates_preconditions [LinearOrder α] (vs : List α) (v : α) :
    ∃ t t1 log, build vs = some t ∧ insert t v = some t1 ∧
      node.insert_log t.root_ v t.size_ = some (t1.root_, t1.size_, log) ∧
      ∀ m ∈ log, m ≠ node.null ∧ (node.balance m).isSome = true ∧
        (node.rotates m = true → ∃ c, node.examined_child m = some c) := by
  obtain ⟨t, h1, w, -⟩ := build_wf vs
  obtain ⟨n1, s1, log, hl, hi, -, Q⟩ := node.insert_log_spec t.root_ v t.size_ w.2.2.1 w.2.1
  refine ⟨t, ⟨n1, s1⟩, log, h1, by simp [insert, hi], hl, ?_⟩
  intro m hm
  refine ⟨(Q.h_called m hm).1, (Q.h_called m hm).2, ?_⟩
  intro hr
  obtain ⟨c, hc, -⟩ := Q.h_child m hm hr
  exact ⟨c, hc⟩

/-- C16. During an `insert` into a tree built by `insert`, whenever `balance`
is called on a node with balance -2 or 2, the child it examines is present, its
balance is not 0 and it is not the node just inserted; so the tests `<= 0` and
`>= 0` on that child agree with the strict tests `< 0` and `> 0`. -/
theorem examined_child_balance_nonzero [LinearOrder α] (vs : List α) (v : α) :
    ∃ t n1 s1 log, build vs = some t ∧ insert t v = some ⟨n1, s1⟩ ∧
      node.insert_log t.root_ v t.size_ = some (n1, s1, log) ∧
      ∀ m ∈ log, node.rotates m = true →
        ∃ c, node.examined_child m = some c ∧ node.stored_balance c ≠ 0 ∧
          c ≠ node.mk node.null node.null v 0 0 ∧
          (node.stored_balance c ≤ 0 ↔ node.stored_balance c < 0) ∧
          (node.stored_balance c ≥ 0 ↔ node.stored_balance c > 0) := by
  obtain ⟨t, h1, w, -⟩ := build_wf vs
  obtain ⟨n1, s1, log, hl, hi, -, Q⟩ := node.insert_log_spec t.root_ v t.size_ w.2.2.1 w.2.1
  refine ⟨t, n1, s1, log, h1, by simp [insert, hi], hl, ?_⟩
  intro m hm hr
  obtain ⟨c, hc, hnz⟩ := Q.h_child m hm hr
  refine ⟨c, hc, hnz, ?_, ?_, ?_⟩
  · rintro rfl
    exact hnz rfl
  · constructor <;> intro hc0 <;> omega
  · constructor <;> intro hc0 <;> omega

/-- C17. On a subtree satisfying I1, I2 and I3 the recursive `insert` returns a
subtree whose true height is that of the original or one more, and every node
it passes to `balance` has a balance between -2 and 2. -/
theorem insert_height_grows_by_at_most_one [LinearOrder α] (n : node α) (v : α) (s : Nat)
    (_h1 : node.bst n) (h2 : node.balanced n) (h3 : node.meta_ok n) :
    ∃ n1 s1 log, node.insert n v s = some (n1, s1) ∧
      node.insert_log n v s = some (n1, s1, log) ∧
      (node.true_height n1 = node.true_height n ∨
        node.true_height n1 = node.true_height n + 1) ∧
      ∀ m ∈ log, -2 ≤ node.stored_balance m ∧ node.stored_balance m ≤ 2 := by
  obtain ⟨n1, s1, log, hl, hi, P, Q⟩ := node.insert_log_spec n v s h3 h2
  exact ⟨n1, s1, log, hi, hl, P.h_height, Q.h_range⟩

/-- Witness of C17: inserting 0 under the subtree 2 with left child 1. -/
theorem insert_height_grows_by_at_most_one_witness :
    ∃ n1 s1 log,
      node.insert (node.mk (node.mk node.null node.null (1 : Int) 0 0) node.null 2 1 (-1)) 0 2
        = some (n1, s1) ∧
      node.insert_log (node.mk (node.mk node.null node.null (1 : Int) 0 0) node.null 2 1 (-1))
        0 2 = some (n1, s1, log) ∧
      (node.true_height n1 =
          node.true_height (node.mk (node.mk node.null node.null (1 : Int) 0 0)
            node.null 2 1 (-1)) ∨
        node.true_height n1 =
          node.true_height (node.mk (node.mk node.null node.null (1 : Int) 0 0)
            node.null 2 1 (-1)) + 1) ∧
      ∀ m ∈ log, -2 ≤ node.stored_balance m ∧ node.stored_balance m ≤ 2 :=
  insert_height_grows_by_at_most_one _ 0 2 (by decide) (by decide) (by decide)

/-- C18. On a subtree `n` satisfying I1, I2 and I3: when `balance` rotates at the
root (the last call of the log), the returned subtree has the true height of `n`;
when it rotates anywhere, the true and the stored height of the result are those
of `n`; when it rotates below the root, the stored balance of the root is
unchanged too; and at most one call of `balance` rotates. -/
theorem rotation_restores_height [LinearOrder α] (n : node α) (v : α) (s : Nat)
    (_h1 : node.bst n) (h2 : node.balanced n) (h3 : node.meta_ok n) :
    ∃ n1 s1 log, node.insert n v s = some (n1, s1) ∧
      node.insert_log n v s = some (n1, s1, log) ∧
      (∀ m, log.getLast? = some m → node.rotates m = true →
        node.true_height n1 = node.true_height n) ∧
      ((∃ m ∈ log, node.rotates m = true) →
        node.true_height n1 = node.true_height n ∧
          node.child_height n1 = node.child_height n) ∧
      ((∃ m ∈ log.dropLast, node.rotates m = true) →
        node.stored_balance n1 = node.stored_balance n) ∧
      (log.filter node.rotates).length ≤ 1 := by
  obtain ⟨n1, s1, log, hl, hi, -, Q⟩ := node.insert_log_spec n v s h3 h2
  refine ⟨n1, s1, log, hi, hl, ?_, Q.h_rot, Q.h_anc, Q.h_one⟩
  intro m hm hr
  exact (Q.h_rot ⟨m, List.mem_of_getLast?_eq_some hm, hr⟩).1

/-- Witness of C18: inserting 0 under the subtree 2 with left child 1. -/
theorem rotation_restores_height_witness :
    ∃ n1 s1 log,
      node.insert (node.mk (node.mk node.null node.null (1 : Int) 0 0) node.null 2 1 (-1)) 0 2
        = some (n1, s1) ∧
      node.insert_log (node.mk (node.mk node.null node.null (1 : Int) 0 0) node.null 2 1 (-1))
        0 2 = some (n1, s1, log) ∧
      (∀ m, log.getLast? = some m → node.rotates m = true →
        node.true_height n1 =
          node.true_height (node.mk (node.mk node.null node.null (1 : Int) 0 0)
            node.null 2 1 (-1))) ∧
      ((∃ m ∈ log, node.rotates m = true) →
        node.true_height n1 =
          node.true_height (node.mk (node.mk node.null node.null (1 : Int) 0 0)
            node.null 2 1 (-1)) ∧
          node.child_height n1 =
            node.child_height (node.mk (node.mk node.null node.null (1 : Int) 0 0)
              node.null 2 1 (-1))) ∧
      ((∃ m ∈ log.dropLast, node.rotates m = true) →
        node.stored_balance n1 =
          node.stored_balance (node.mk (node.mk node.null node.null (1 : Int) 0 0)
            node.null 2 1 (-1))) ∧
      (log.filter node.rotates).length ≤ 1 :=
  rotation_restores_height _ 0 2 (by decide) (by decide) (by decide)

theorem node.true_height_eq_depth (n : node α) :
    node.true_height n = (node.depth n : Int) - 1 := by
  induction n with
  | null => simp [node.true_height, node.depth]
  | mk l r x h b ihl ihr =>
    simp only [node.true_height, node.depth, ihl, ihr]
    push_cast
    omega

theorem node.fib_depth_le_count (n : node α) (hb : node.balanced n) :
    Nat.fib (node.depth n + 2) ≤ node.count n + 1 := by
  induction n with
  | null => simp [node.depth, node.count]
  | mk l r x h b ihl ihr =>
    obtain ⟨bl, br, d1, d2⟩ := hb
    have il := ihl bl
    have ir := ihr br
    rw [node.true_height_eq_depth l, node.true_height_eq_depth r] at d1 d2
    simp only [node.depth, node.count]
    rcases le_total (node.depth l) (node.depth r) with hle | hle
    · rw [max_eq_right hle]
      have e : 1 + node.depth r + 2 = node.depth r + 3 := by omega
      have hf : Nat.fib (node.depth r + 3) =
          Nat.fib (node.depth r + 1) + Nat.fib (node.depth r + 2) := Nat.fib_add_two
      rw [e, hf]
      have hm : Nat.fib (node.depth r + 1) ≤ Nat.fib (node.depth l + 2) :=
        Nat.fib_mono (by omega)
      omega
    · rw [max_eq_left hle]
      have e : 1 + node.depth l + 2 = node.depth l + 3 := by omega
      have hf : Nat.fib (node.depth l + 3) =
          Nat.fib (node.depth l + 1) + Nat.fib (node.depth l + 2) := Nat.fib_add_two
      rw [e, hf]
      have hm : Nat.fib (node.depth l + 1) ≤ Nat.fib (node.depth r + 2) :=
        Nat.fib_mono (by omega)
      omega

theorem two_pow_succ_le_fib (h : Nat) :
    2 ^ ((h + 1) / 2) + 1 ≤ Nat.fib (h + 3) ∧ 2 ^ ((h + 2) / 2) + 1 ≤ Nat.fib (h + 4) := by
  induction h with
  | zero => decide
  | succ k ih =>
    refine ⟨ih.2, ?_⟩
    have e1 : (k + 1 + 2) / 2 = (k + 1) / 2 + 1 := by omega
    have hf : Nat.fib (k + 1 + 4) = Nat.fib (k + 3) + Nat.fib (k + 4) := Nat.fib_add_two
    rw [e1, hf, pow_succ]
    have := ih.1
    have hm : Nat.fib (k + 3) ≤ Nat.fib (k + 4) := Nat.fib_le_fib_succ
    omega

/-- C19. A tree built from a non-empty sequence has `n >= 1` nodes and a height
`h >= 0` with `Fib(h + 3) - 1 <= n`, `2^(h/2) <= n` (rounding the exponent up
or down, and in the form `2^h <= n^2`), and `h <= 2 * log2 n`. -/
theorem height_is_logarithmic [LinearOrder α] (v : α) (vs : List α) :
    ∃ t, build (v :: vs) = some t ∧ 1 ≤ size t ∧ size t = node.count t.root_ ∧
      0 ≤ node.true_height t.root_ ∧
      Nat.fib ((node.true_height t.root_).toNat + 3) - 1 ≤ size t ∧
      2 ^ (((node.true_height t.root_).toNat + 1) / 2) ≤ size t ∧
      2 ^ ((node.true_height t.root_).toNat / 2) ≤ size t ∧
      2 ^ (node.true_height t.root_).toNat ≤ size t ^ 2 ∧
      (node.true_height t.root_).toNat ≤ 2 * Nat.log 2 (size t) := by
  obtain ⟨t, h1, w, hmem⟩ := build_wf (v :: vs)
  have hv : v ∈ node.values t.root_ := (hmem v).2 (List.mem_cons_self v vs)
  have hfib := node.fib_depth_le_count t.root_ w.2.1
  have hd := node.true_height_eq_depth t.root_
  have hsz : size t = node.count t.root_ := w.2.2.2
  have hcl := node.count_eq_length t.root_
  have hpos : 1 ≤ node.count t.root_ := by
    rw [hcl]
    exact List.length_pos_of_mem hv
  have hdep : 1 ≤ node.depth t.root_ := by
    cases hr : t.root_ with
    | null => rw [hr] at hv; simp [node.values] at hv
    | mk l r x h b => simp only [node.depth]; omega
  obtain ⟨k, hk⟩ : ∃ k, node.depth t.root_ = k + 1 := ⟨node.depth t.root_ - 1, by omega⟩
  have hth : (node.true_height t.root_).toNat = k := by
    rw [hd, hk]; push_cast; simp
  have hpow := (two_pow_succ_le_fib k).1
  have e3 : node.depth t.root_ + 2 = k + 3 := by omega
  rw [e3] at hfib
  have hA : 2 ^ ((k + 1) / 2) ≤ node.count t.root_ := by omega
  have hB : 2 ^ (k / 2) ≤ 2 ^ ((k + 1) / 2) :=
    Nat.pow_le_pow_right (by decide) (Nat.div_le_div_right (Nat.le_succ k))
  have hC : 2 ^ k ≤ node.count t.root_ ^ 2 := by
    calc 2 ^ k ≤ 2 ^ ((k + 1) / 2 * 2) := Nat.pow_le_pow_right (by decide) (by omega)
      _ = (2 ^ ((k + 1) / 2)) ^ 2 := by rw [pow_mul]
      _ ≤ node.count t.root_ ^ 2 := Nat.pow_le_pow_left hA 2
  have hD : (k + 1) / 2 ≤ Nat.log 2 (node.count t.root_) :=
    Nat.le_log_of_pow_le (by decide) hA
  refine ⟨t, h1, ?_, hsz, ?_, ?_, ?_, ?_, ?_, ?_⟩
  · rw [hsz]; exact hpos
  · rw [hd, hk]; push_cast; omega
  · rw [hth, hsz]; omega
  · rw [hth, hsz]; exact hA
  · rw [hth, hsz]; exact le_trans hB hA
  · rw [hth, hsz]; exact hC
  · rw [hth, hsz]; omega

/-- C20 (code bug). `clear()` never assigns `root_`.  After `clear()` on the tree
built from any non-empty sequence, `root_` is not null: it holds the address of
the released root node.  For the tree built from 2, 1, 3, `size()` is 0 and
`empty()` is true after `clear()`, with `root_` still not null. -/
theorem clear_keeps_root_pointer :
    (∀ (v : Int) (vs : List Int),
        ∃ t, build (v :: vs) = some t ∧ (clear t).root_ = stale_ptr.released) ∧
      (build ([2, 1, 3] : List Int)).map (fun t => (clear t).root_)
        = some stale_ptr.released ∧
      (build ([2, 1, 3] : List Int)).map (fun t => (clear t).size) = some 0 ∧
      (build ([2, 1, 3] : List Int)).map (fun t => (clear t).empty) = some true := by
  refine ⟨?_, by decide⟩
  intro v vs
  obtain ⟨t, h1, -, hmem⟩ := build_wf (v :: vs)
  have hv : v ∈ node.values t.root_ := (hmem v).2 (List.mem_cons_self v vs)
  refine ⟨t, h1, ?_⟩
  obtain ⟨root, sz⟩ := t
  cases root with
  | null => simp [node.values] at hv
  | mk l r x h b => rfl

end avl_tree
